import Mathlib

/-!
Shallow embedding of the 802.11 management-frame tagged-parameter decoder
(`src/management/tagged_parameters.rs`) of the rust-ieee80211 repository.

Byte buffers are modelled as `List Nat` (each element a byte value).  Rust
slicing `&bytes[a..b]` is modelled by `sliceList`, `&bytes[a..]` by
`List.drop`.  The `HashMap<TagName, Cow<[u8]>>` of `TaggedParameters` is
modelled extensionally as a function `TagName → Option (List Nat)`, whose
`insert` (the `add` method) replaces any previous binding, exactly as
`HashMap::insert` does.  Fallible code is `Except`/`Option`; a Rust index
panic is modelled in the checked variants by an outer `Option` returning
`none`.
-/

namespace Ieee80211

/-- Tag-name taxonomy, from `enum TagName`. -/
inductive TagName where
  | Other (n : Nat)
  | SSID
  | SupportedRates
  | DSParameter
  | TrafficIndicationMap
  | CountryInformation
  | ERPInformation
  | ExtendedSupportedRates
  | RSNInformation
  | QBSSLoadElement
  | HTCapabilities
  | HTInformation
  | ExtendedCapabilities
  | VHTCapabilities
  | PowerCapabilities
deriving DecidableEq, Repr

/-- Embeds `impl From<u8> for TagName` (the match on the wire tag number). -/
def TagName.ofCode (tag_number : Nat) : TagName :=
  match tag_number with
  | 0 => TagName.SSID
  | 1 => TagName.SupportedRates
  | 3 => TagName.DSParameter
  | 5 => TagName.TrafficIndicationMap
  | 7 => TagName.CountryInformation
  | 33 => TagName.PowerCapabilities
  | 42 => TagName.ERPInformation
  | 50 => TagName.ExtendedSupportedRates
  | 48 => TagName.RSNInformation
  | 11 => TagName.QBSSLoadElement
  | 45 => TagName.HTCapabilities
  | 61 => TagName.HTInformation
  | 127 => TagName.ExtendedCapabilities
  | 191 => TagName.VHTCapabilities
  | n => TagName.Other n

/-- Embeds `struct OverflowError`. -/
structure OverflowError where
  required_length : Nat
  remaining_length : Nat
deriving DecidableEq, Repr

/-- Embeds `OverflowError::new`. -/
def OverflowError.new (required_length remaining_length : Nat) : OverflowError :=
  { required_length := required_length, remaining_length := remaining_length }

/-- Rust slice `&bytes[a..b]`. -/
def sliceList (bytes : List Nat) (a b : Nat) : List Nat :=
  (bytes.drop a).take (b - a)

/-- Embeds `LittleEndian::read_u16(&bytes[i..i+2])`: the little-endian
16-bit value at offset `i` (callers guard that `i + 2 ≤ bytes.length`). -/
def readU16LE (bytes : List Nat) (i : Nat) : Nat :=
  bytes.getD i 0 + 256 * bytes.getD (i + 1) 0

/-- Embeds `enum CipherSuiteType`. -/
inductive CipherSuiteType where
  | UseGroupCipherSuite
  | WEP40
  | TKIP
  | Reserved (n : Nat)
  | CCMP
  | WEP104
  | BIP
  | GroupAddressedTrafficNotAllowed
deriving DecidableEq, Repr

/-- Embeds `CipherSuiteType::from` (the match on the type byte). -/
def CipherSuiteType.ofCode (t : Nat) : CipherSuiteType :=
  match t with
  | 1 => CipherSuiteType.WEP40
  | 2 => CipherSuiteType.TKIP
  | 4 => CipherSuiteType.CCMP
  | 5 => CipherSuiteType.WEP104
  | 6 => CipherSuiteType.BIP
  | 7 => CipherSuiteType.GroupAddressedTrafficNotAllowed
  | other => CipherSuiteType.Reserved other

/-- Embeds `enum CipherSuite`; the OUI (3-byte organizational id) is the
3-element byte list read from the suite entry. -/
inductive CipherSuite where
  | Standard (t : CipherSuiteType)
  | Vendor (oui : List Nat) (t : Nat)
deriving DecidableEq, Repr

/-- Embeds `CipherSuite::from`: the match on the OUI pattern
`[0x00, 0x0f, 0xac]`, any other OUI falling to `Vendor`. -/
def CipherSuite.ofOui (oui : List Nat) (t : Nat) : CipherSuite :=
  if oui = [0x00, 0x0f, 0xac] then CipherSuite.Standard (CipherSuiteType.ofCode t)
  else CipherSuite.Vendor oui t

/-- Embeds `enum AKMSuiteType`. -/
inductive AKMSuiteType where
  | Reserved (n : Nat)
  | IEEE802_1X
  | PSK
  | FTOver802_1X
  | FTPSK
  | IEEE802_1XSHA
  | PSKSHA
  | TDLS
  | SAE
  | FTOverSAE
deriving DecidableEq, Repr

/-- Embeds `AKMSuiteType::from`. -/
def AKMSuiteType.ofCode (t : Nat) : AKMSuiteType :=
  match t with
  | 1 => AKMSuiteType.IEEE802_1X
  | 2 => AKMSuiteType.PSK
  | 3 => AKMSuiteType.FTOver802_1X
  | 4 => AKMSuiteType.FTPSK
  | 5 => AKMSuiteType.IEEE802_1XSHA
  | 6 => AKMSuiteType.PSKSHA
  | 7 => AKMSuiteType.TDLS
  | 8 => AKMSuiteType.SAE
  | 9 => AKMSuiteType.FTOverSAE
  | other => AKMSuiteType.Reserved other

/-- Embeds `enum AKMSuite`. -/
inductive AKMSuite where
  | Standard (t : AKMSuiteType)
  | Vendor (oui : List Nat) (t : Nat)
deriving DecidableEq, Repr

/-- Embeds `AKMSuite::from`. -/
def AKMSuite.ofOui (oui : List Nat) (t : Nat) : AKMSuite :=
  if oui = [0x00, 0x0f, 0xac] then AKMSuite.Standard (AKMSuiteType.ofCode t)
  else AKMSuite.Vendor oui t

/-- Embeds `RSN::read_suite_oui_and_type` (called only on 4-byte slices). -/
def read_suite_oui_and_type (bytes : List Nat) : List Nat × Nat :=
  (sliceList bytes 0 3, bytes.getD 3 0)

/-- Embeds `RSN::read_cipher_suite`. -/
def read_cipher_suite (bytes : List Nat) : CipherSuite :=
  match read_suite_oui_and_type bytes with
  | (oui, t) => CipherSuite.ofOui oui t

/-- Embeds `RSN::read_akm_suite`. -/
def read_akm_suite (bytes : List Nat) : AKMSuite :=
  match read_suite_oui_and_type bytes with
  | (oui, t) => AKMSuite.ofOui oui t

/-- Embeds `struct RSNCapabilities`. -/
structure RSNCapabilities where
  pre_auth : Bool
  pairwise : Bool
  ptksa_replay_counter_value : Nat
  gtksa_replay_counter_value : Nat
  management_frame_protection_required : Bool
  management_frame_protection_capable : Bool
  joint_multi_band_rsna : Bool
  peerkey : Bool
deriving DecidableEq, Repr

/-- The field-by-field bit unpacking of the 16-bit capabilities value `b`
performed inside `make_std_rsn` (masks written in decimal/hex equal to the
binary literals in the source: 1, 2, 0b1100 = 12, 0b110000 = 48, 64, 128,
256, 512). -/
def unpackCapabilities (b : Nat) : RSNCapabilities :=
  { pre_auth := b &&& 1 != 0
    pairwise := b &&& 2 != 0
    ptksa_replay_counter_value := (b &&& 12) >>> 2
    gtksa_replay_counter_value := (b &&& 48) >>> 4
    management_frame_protection_required := b &&& 64 != 0
    management_frame_protection_capable := b &&& 128 != 0
    joint_multi_band_rsna := b &&& 256 != 0
    peerkey := b &&& 512 != 0 }

/-- Embeds `struct RSN` with its `derive(Default)` field defaults. -/
structure RSN where
  group_cipher_suite : Option CipherSuite := none
  pairwise_cipher_suites : List CipherSuite := []
  akm_suites : List AKMSuite := []
  capabilities : Option RSNCapabilities := none
deriving DecidableEq, Repr

/-- Embeds `enum RSNVersion`. -/
inductive RSNVersion where
  | Standard (rsn : RSN)
  | Reserved (v : Nat)
deriving DecidableEq, Repr

/-- Embeds the `for _ in 0..count` suite-reading loop of `make_std_rsn`:
starting at cursor `i`, reads up to `count` 4-byte suite entries, each read
gated by `i + 4 > len`.  Returns the suites read so far, the final cursor,
and whether all `count` entries were read (`false` means the loop hit the
gate and `make_std_rsn` returns immediately with the partial result). -/
def readSuiteListAux {α : Type} (read4 : List Nat → α) (bytes : List Nat) :
    Nat → Nat → List α × Nat × Bool
  | i, 0 => ([], i, true)
  | i, Nat.succ n =>
    if i + 4 > bytes.length then ([], i, false)
    else
      let s := read4 (sliceList bytes i (i + 4))
      match readSuiteListAux read4 bytes (i + 4) n with
      | (rest, j, ok) => (s :: rest, j, ok)

/-- Embeds `make_std_rsn`: the sequential cursor parse over the RSN tag
value bytes after the version field, each step gated by an
enough-bytes-remain check, returning the partial default-filled `RSN` as
soon as a gate fails. -/
def make_std_rsn (bytes : List Nat) : RSN :=
  let len := bytes.length
  if 4 > len then {} else
  let group_cipher_suite := read_cipher_suite (sliceList bytes 0 4)
  if 6 > len then { group_cipher_suite := some group_cipher_suite } else
  let pairwise_cipher_suite_count := readU16LE bytes 4
  match readSuiteListAux read_cipher_suite bytes 6 pairwise_cipher_suite_count with
  | (pw, i1, ok1) =>
    if ok1 then
      if i1 + 2 > len then
        { group_cipher_suite := some group_cipher_suite
          pairwise_cipher_suites := pw }
      else
        let akm_suite_count := readU16LE bytes i1
        match readSuiteListAux read_akm_suite bytes (i1 + 2) akm_suite_count with
        | (akms, i2, ok2) =>
          if ok2 then
            if i2 + 2 > len then
              { group_cipher_suite := some group_cipher_suite
                pairwise_cipher_suites := pw
                akm_suites := akms }
            else
              { group_cipher_suite := some group_cipher_suite
                pairwise_cipher_suites := pw
                akm_suites := akms
                capabilities := some (unpackCapabilities (readU16LE bytes i2)) }
          else
            { group_cipher_suite := some group_cipher_suite
              pairwise_cipher_suites := pw
              akm_suites := akms }
    else
      { group_cipher_suite := some group_cipher_suite
        pairwise_cipher_suites := pw }

/-- Embeds `struct TaggedParameters`: the `HashMap` is modelled
extensionally as a lookup function. -/
structure TaggedParameters where
  tags : TagName → Option (List Nat)

/-- Embeds `TaggedParameters::new`. -/
def TaggedParameters.new : TaggedParameters := ⟨fun _ => none⟩

/-- Embeds `TaggedParameters::add` (`HashMap::insert`: replaces any
previous binding of the same tag name). -/
def TaggedParameters.add (tp : TaggedParameters) (tag_name : TagName)
    (tag_data : List Nat) : TaggedParameters :=
  ⟨fun n => if n = tag_name then some tag_data else tp.tags n⟩

/-- Embeds `TaggedParameters::get_bytes`. -/
def TaggedParameters.get_bytes (tp : TaggedParameters) (tag_name : TagName) :
    Option (List Nat) :=
  tp.tags tag_name

/-- Embeds `TaggedParameters::ssid` (the `AsRef` map is the identity in
this model). -/
def TaggedParameters.ssid (tp : TaggedParameters) : Option (List Nat) :=
  tp.get_bytes TagName.SSID

/-- Embeds `TaggedParameters::supported_rates`; the rate value
`(f64::from(kbps) * 500.0) / 1000.0` is modelled exactly in `ℚ` (both are
exact: `kbps ≤ 127`, and multiples of one half are exactly representable
in an `f64`). -/
def TaggedParameters.supported_rates (tp : TaggedParameters) :
    Option (List ℚ) :=
  (tp.tags TagName.SupportedRates).map fun supported_rates =>
    supported_rates.map fun rate =>
      let kbps : Nat := rate &&& 127
      ((kbps : ℚ) * 500) / 1000

/-- Embeds `TaggedParameters::channel`.  The source indexes `bytes[0]`
without a bounds check; that index panics when the tag value is empty, so
the result is wrapped in an outer `Option` where `none` models the panic
and `some c` models a normal return of `c`. -/
def TaggedParameters.channel (tp : TaggedParameters) : Option (Option Nat) :=
  match tp.tags TagName.DSParameter with
  | some bytes =>
    match bytes.get? 0 with
    | some b => some (some b)
    | none => none
  | none =>
    match tp.tags TagName.HTInformation with
    | some bytes =>
      match bytes.get? 0 with
      | some b => some (some b)
      | none => none
    | none => some none

/-- Embeds `TaggedParameters::rsn`: the version gate `(i + 1) >= len` with
`i = 0`, the little-endian version read, and the dispatch on version 1. -/
def TaggedParameters.rsn (tp : TaggedParameters) : Option RSNVersion :=
  (tp.tags TagName.RSNInformation).bind fun bytes =>
    let i := 0
    let len := bytes.length
    if i + 1 ≥ len then none
    else
      let version := readU16LE bytes i
      some (match version with
        | 1 => RSNVersion.Standard (make_std_rsn (bytes.drop (i + 2)))
        | other => RSNVersion.Reserved other)

/-- Embeds `TaggedParameterIterator::next`.  The iterator state is the
remaining byte region; the result pairs the yielded item (`none` =
iteration over) with the successor state.  In the overflow branch the
source first empties `self.bytes` and only then builds the error from
`self.bytes.len()`; that order is preserved here. -/
def next (bytes : List Nat) :
    Option (Except OverflowError (TagName × List Nat)) × List Nat :=
  if bytes.length < 2 then (none, bytes)
  else
    let tag_number := bytes.getD 0 0
    let tag_length := bytes.getD 1 0
    if bytes.length < 2 + tag_length then
      let bytes2 := bytes.drop bytes.length
      (some (Except.error (OverflowError.new tag_length bytes2.length)), bytes2)
    else
      let tag_buffer := sliceList bytes 2 (2 + tag_length)
      let bytes2 := bytes.drop (2 + tag_length)
      (some (Except.ok (TagName.ofCode tag_number, tag_buffer)), bytes2)

/-- Rust slice `&bytes[a..b]` with its bounds checks made explicit:
`none` models the panic on `a > b` or `b > bytes.length`. -/
def sliceChk (bytes : List Nat) (a b : Nat) : Option (List Nat) :=
  if a ≤ b ∧ b ≤ bytes.length then some ((bytes.drop a).take (b - a)) else none

/-- Rust slice `&bytes[a..]` with its bounds check made explicit. -/
def sliceFromChk (bytes : List Nat) (a : Nat) : Option (List Nat) :=
  if a ≤ bytes.length then some (bytes.drop a) else none

/-- `TaggedParameterIterator::next` with every byte access checked:
indexing uses `List.get?` and slicing uses the checked slices, so a `none`
result means the source would have read out of bounds. -/
def nextChk (bytes : List Nat) :
    Option (Option (Except OverflowError (TagName × List Nat)) × List Nat) :=
  if bytes.length < 2 then some (none, bytes)
  else
    (bytes.get? 0).bind fun tag_number =>
    (bytes.get? 1).bind fun tag_length =>
    if bytes.length < 2 + tag_length then
      (sliceFromChk bytes bytes.length).bind fun bytes2 =>
      some (some (Except.error (OverflowError.new tag_length bytes2.length)), bytes2)
    else
      (sliceChk bytes 2 (2 + tag_length)).bind fun tag_buffer =>
      (sliceFromChk bytes (2 + tag_length)).bind fun bytes2 =>
      some (some (Except.ok (TagName.ofCode tag_number, tag_buffer)), bytes2)

/-- The full yield sequence of the iterator started on `bytes`: repeated
`next` until it returns `none` (each yielded record consumes at least two
bytes of the region, so the sequence is finite). -/
def runIter (bytes : List Nat) :
    List (Except OverflowError (TagName × List Nat)) :=
  match hn : next bytes with
  | (none, _) => []
  | (some item, rest) => item :: runIter rest
termination_by bytes.length
decreasing_by
  unfold next at hn
  simp only [] at hn
  split at hn
  · exact absurd (congrArg Prod.fst hn) (by simp)
  · split at hn
    · obtain ⟨-, h2⟩ := Prod.mk.injEq .. ▸ hn
      subst h2
      simp only [List.drop_length, List.length_nil]
      omega
    · obtain ⟨-, h2⟩ := Prod.mk.injEq .. ▸ hn
      subst h2
      simp only [List.length_drop]
      omega

/-- Embeds the loop body of `TaggedParametersTrait::tagged_parameters`
applied to a materialised yield sequence: stop with `Except.error` at the
first error item (the `?` operator), otherwise `add` each tag into the
accumulated collection. -/
def collectTags : List (Except OverflowError (TagName × List Nat)) →
    TaggedParameters → Except OverflowError TaggedParameters
  | [], acc => Except.ok acc
  | Except.error e :: _, _ => Except.error e
  | Except.ok (tag_name, tag) :: rest, acc =>
    collectTags rest (acc.add tag_name tag)

/-- Embeds `TaggedParametersTrait::tagged_parameters` on the byte region
starting at the first tag. -/
def tagged_parameters (bytes : List Nat) :
    Except OverflowError TaggedParameters :=
  collectTags (runIter bytes) TaggedParameters.new

/-- Wire encoding of one (tag number, value) record: tag byte, length
byte, value bytes. -/
def encodeTag (p : Nat × List Nat) : List Nat :=
  p.1 :: p.2.length :: p.2

/-- Wire encoding of a back-to-back sequence of records filling a region
exactly. -/
def encodeRegion (triples : List (Nat × List Nat)) : List Nat :=
  triples.foldr (fun p acc => encodeTag p ++ acc) []

/-- Well-formed record triples: tag number, declared length and every
value byte fit in one byte. -/
def wfTriples (triples : List (Nat × List Nat)) : Prop :=
  ∀ p ∈ triples, p.1 < 256 ∧ p.2.length < 256 ∧ ∀ b ∈ p.2, b < 256

instance (triples : List (Nat × List Nat)) : Decidable (wfTriples triples) := by
  unfold wfTriples
  infer_instance

/-- Last-occurrence association lookup: the value of the last pair whose
name matches, if any. -/
def lastAssoc : List (TagName × List Nat) → TagName → Option (List Nat)
  | [], _ => none
  | p :: rest, n =>
    match lastAssoc rest n with
    | some v => some v
    | none => if p.1 = n then some p.2 else none

/-- Unfolding equation for `runIter`. -/
theorem runIter_eq (bytes : List Nat) :
    runIter bytes = match next bytes with
      | (none, _) => []
      | (some item, rest) => item :: runIter rest := by
  rw [runIter]
  split <;> rename_i hn2 <;> rw [hn2]

/-- On a region of fewer than two bytes, `next` yields nothing and leaves
the region unchanged. -/
theorem next_none_of_short {bytes : List Nat} (h : bytes.length < 2) :
    next bytes = (none, bytes) := by
  unfold next
  rw [if_pos h]

/-- On a region of at least two bytes whose declared tag length overflows
the region, `next` yields the overflow error built after the region was
emptied, and the successor state is the empty region. -/
theorem next_error_of_overflow {bytes : List Nat} (h2 : 2 ≤ bytes.length)
    (hover : bytes.length < 2 + bytes.getD 1 0) :
    next bytes =
      (some (Except.error (OverflowError.new (bytes.getD 1 0) 0)), []) := by
  unfold next
  rw [if_neg (by omega)]
  simp only []
  rw [if_pos hover]
  simp [List.drop_length]

/-- On a region of at least two bytes whose declared tag length fits,
`next` yields the tag record and drops it from the region. -/
theorem next_ok_of_fits {bytes : List Nat} (h2 : 2 ≤ bytes.length)
    (hfits : 2 + bytes.getD 1 0 ≤ bytes.length) :
    next bytes =
      (some (Except.ok (TagName.ofCode (bytes.getD 0 0),
          sliceList bytes 2 (2 + bytes.getD 1 0))),
        bytes.drop (2 + bytes.getD 1 0)) := by
  unfold next
  rw [if_neg (by omega)]
  simp only []
  rw [if_neg (by omega)]

/-- Whenever `next` yields an error, the successor state is empty. -/
theorem next_error_rest_nil {bytes rest : List Nat} {e : OverflowError}
    (h : next bytes = (some (Except.error e), rest)) : rest = [] := by
  by_cases h2 : bytes.length < 2
  · rw [next_none_of_short h2] at h
    exact absurd (congrArg Prod.fst h) (by simp)
  · by_cases hover : bytes.length < 2 + bytes.getD 1 0
    · rw [next_error_of_overflow (by omega) hover] at h
      exact (congrArg Prod.snd h).symm
    · rw [next_ok_of_fits (by omega) (by omega)] at h
      exact absurd (congrArg Prod.fst h) (by simp)

/-- `runIter` step equation when `next` yields an item. -/
theorem runIter_cons {bytes rest : List Nat}
    {item : Except OverflowError (TagName × List Nat)}
    (h : next bytes = (some item, rest)) :
    runIter bytes = item :: runIter rest := by
  rw [runIter_eq, h]

/-- `runIter` is empty when `next` yields nothing. -/
theorem runIter_nil {bytes rest : List Nat}
    (h : next bytes = (none, rest)) : runIter bytes = [] := by
  rw [runIter_eq, h]

/-- If `next` yields an item, the remaining region strictly shrinks. -/
theorem next_some_shrinks {bytes rest : List Nat}
    {item : Except OverflowError (TagName × List Nat)}
    (h : next bytes = (some item, rest)) : rest.length < bytes.length := by
  by_cases h2 : bytes.length < 2
  · rw [next_none_of_short h2] at h
    exact absurd (congrArg Prod.fst h) (by simp)
  · by_cases hover : bytes.length < 2 + bytes.getD 1 0
    · rw [next_error_of_overflow (by omega) hover] at h
      have h3 := congrArg Prod.snd h
      simp only [] at h3
      rw [← h3]
      simp only [List.length_nil]
      omega
    · rw [next_ok_of_fits (by omega) (by omega)] at h
      have h3 := congrArg Prod.snd h
      simp only [] at h3
      rw [← h3]
      simp only [List.length_drop]
      omega

/-- In any yield sequence of the iterator, an error item is always the
last item. -/
theorem runIter_error_last (bytes : List Nat) :
    ∀ pre (e : OverflowError) post,
      runIter bytes = pre ++ Except.error e :: post → post = [] := by
  have H : ∀ n (bytes : List Nat), bytes.length = n →
      ∀ pre (e : OverflowError) post,
        runIter bytes = pre ++ Except.error e :: post → post = [] := by
    intro n
    induction n using Nat.strong_induction_on with
    | _ n ih =>
      intro bytes hlen pre e post h
      rw [runIter_eq] at h
      cases hx : next bytes with
      | mk fst rest =>
        rw [hx] at h
        cases fst with
        | none => simp at h
        | some item =>
          simp only [] at h
          cases pre with
          | nil =>
            simp only [List.nil_append, List.cons.injEq] at h
            obtain ⟨h1, h2⟩ := h
            subst h1
            have hrest := next_error_rest_nil hx
            subst hrest
            rw [runIter_nil (next_none_of_short (by simp))] at h2
            exact h2.symm
          | cons p pre2 =>
            simp only [List.cons_append, List.cons.injEq] at h
            obtain ⟨-, h2⟩ := h
            exact ih rest.length (hlen ▸ next_some_shrinks hx) rest rfl
              pre2 e post h2
  exact H bytes.length bytes rfl

/-- C1: on the region `[0x00, 0x05, 0xAA]` the declared tag length 5
overflows the 3-byte region, and the single error the iterator yields
stores `remaining_length = 0` — the length of the already-emptied region
slice — although 3 bytes remained when the tag was read. -/
theorem next_overflow_remaining_zero_eval :
    next [0, 5, 170] =
      (some (Except.error { required_length := 5, remaining_length := 0 }),
        []) := rfl

/-- C5: the iterator yields nothing once fewer than two bytes remain; if
the declared length of the record at the head of the region exceeds what
remains it yields exactly the one overflow error and its successor state
answers every further call with nothing; and in every yield sequence an
error is the final item. -/
theorem iterator_error_terminal (bytes : List Nat) :
    (bytes.length < 2 → runIter bytes = []) ∧
    (2 ≤ bytes.length → bytes.length < 2 + bytes.getD 1 0 →
      runIter bytes = [Except.error (OverflowError.new (bytes.getD 1 0) 0)]) ∧
    (∀ (e : OverflowError) rest, next bytes = (some (Except.error e), rest) →
      next rest = (none, rest)) ∧
    (∀ pre (e : OverflowError) post,
      runIter bytes = pre ++ Except.error e :: post → post = []) := by
  refine ⟨fun h => runIter_nil (next_none_of_short h), fun h2 hover => ?_,
    fun e rest h => ?_, runIter_error_last bytes⟩
  · rw [runIter_cons (next_error_of_overflow h2 hover),
      runIter_nil (next_none_of_short (by simp))]
  · have hrest := next_error_rest_nil h
    subst hrest
    exact next_none_of_short (by simp)

/-- Witness for C5 at the region `[0x01, 0x05]`: two bytes remain, the
declared length 5 overflows, and the yield sequence is the single error. -/
theorem iterator_error_terminal_witness :
    runIter [1, 5] = [Except.error (OverflowError.new 5 0)] :=
  (iterator_error_terminal [1, 5]).2.1 (by decide) (by decide)

/-- C6: the checked iterator step — every index read through `List.get?`
and every slice through the bounds-checked slices — never fails and agrees
with the embedding, for every region and hence for every state the
iterator can ever be in: the iterator never reads outside its region. -/
theorem next_in_bounds (bytes : List Nat) :
    nextChk bytes = some (next bytes) := by
  match bytes with
  | [] => rfl
  | [a] => rfl
  | a :: b :: t =>
    have h2 : ¬ (a :: b :: t).length < 2 := by
      simp only [List.length_cons]
      omega
    unfold nextChk next
    rw [if_neg h2, if_neg h2]
    simp only [List.get?, Option.bind_eq_bind, Option.some_bind, List.getD,
      Option.getD_some]
    by_cases hover : (a :: b :: t).length < 2 + b
    · rw [if_pos hover, if_pos hover, sliceFromChk, if_pos (Nat.le_refl _)]
      rfl
    · rw [if_neg hover, if_neg hover, sliceChk,
        if_pos ⟨by omega, by omega⟩, sliceFromChk, if_pos (by omega)]
      rfl

/-- `collectTags` on a sequence whose first error follows a block of ok
records returns exactly that error, whatever was already accumulated. -/
theorem collectTags_first_error :
    ∀ (pre : List (TagName × List Nat)) (e : OverflowError) post acc,
      collectTags (pre.map Except.ok ++ Except.error e :: post) acc =
        Except.error e := by
  intro pre
  induction pre with
  | nil => intro e post acc; rfl
  | cons p pre2 ih =>
    intro e post acc
    obtain ⟨n, v⟩ := p
    exact ih e post (acc.add n v)

/-- `collectTags` on an all-ok sequence accumulates every record with
`add`. -/
theorem collectTags_all_ok :
    ∀ (recs : List (TagName × List Nat)) acc,
      collectTags (recs.map Except.ok) acc =
        Except.ok (recs.foldl (fun tp r => tp.add r.1 r.2) acc) := by
  intro recs
  induction recs with
  | nil => intro acc; rfl
  | cons p rest ih =>
    intro acc
    obtain ⟨n, v⟩ := p
    exact ih (acc.add n v)

/-- C4: building the collection is all-or-nothing.  If the yield sequence
holds an error after some ok records, the result is exactly that error —
the records already collected are discarded, since the error outcome
carries no collection.  The result is a collection only when every record
in the region parsed without error, and then it is the fold of `add` over
all of them. -/
theorem tagged_parameters_all_or_nothing (bytes : List Nat) :
    (∀ (pre : List (TagName × List Nat)) (e : OverflowError) post,
      runIter bytes = pre.map Except.ok ++ Except.error e :: post →
      tagged_parameters bytes = Except.error e) ∧
    (∀ recs : List (TagName × List Nat),
      runIter bytes = recs.map Except.ok →
      tagged_parameters bytes =
        Except.ok (recs.foldl (fun tp r => tp.add r.1 r.2)
          TaggedParameters.new)) := by
  constructor
  · intro pre e post h
    rw [tagged_parameters, h, collectTags_first_error]
  · intro recs h
    rw [tagged_parameters, h, collectTags_all_ok]

/-- Witness for C4 at the region `[0x00, 0x03, 0x01]`: the only record
overflows, so the build propagates the error. -/
theorem tagged_parameters_all_or_nothing_witness :
    tagged_parameters [0, 3, 1] = Except.error (OverflowError.new 3 0) :=
  (tagged_parameters_all_or_nothing [0, 3, 1]).1 [] (OverflowError.new 3 0) []
    (by rw [runIter_cons (show next [0, 3, 1] =
            (some (Except.error (OverflowError.new 3 0)), []) from rfl),
          runIter_nil (show next ([] : List Nat) = (none, []) from rfl)]
        rfl)

/-- On the exact encoding of a record list, the iterator yields exactly
those records, in order, all ok. -/
theorem runIter_encode (triples : List (Nat × List Nat)) :
    runIter (encodeRegion triples) =
      triples.map fun p => Except.ok (TagName.ofCode p.1, p.2) := by
  induction triples with
  | nil => exact runIter_nil (next_none_of_short (by simp [encodeRegion]))
  | cons p rest ih =>
    obtain ⟨t, v⟩ := p
    have henc : encodeRegion ((t, v) :: rest) =
        t :: v.length :: (v ++ encodeRegion rest) := by
      simp [encodeRegion, encodeTag]
    rw [henc]
    have hlen : (t :: v.length :: (v ++ encodeRegion rest)).length =
        2 + v.length + (encodeRegion rest).length := by
      simp only [List.length_cons, List.length_append]
      omega
    have hget1 : (t :: v.length :: (v ++ encodeRegion rest)).getD 1 0 =
        v.length := rfl
    have hnext := @next_ok_of_fits (t :: v.length :: (v ++ encodeRegion rest))
      (by rw [hlen]; omega) (by rw [hget1, hlen]; omega)
    rw [hget1] at hnext
    have hslice : sliceList (t :: v.length :: (v ++ encodeRegion rest)) 2
        (2 + v.length) = v := by
      show ((v ++ encodeRegion rest).take (2 + v.length - 2)) = v
      rw [show 2 + v.length - 2 = v.length from by omega]
      exact List.take_left v (encodeRegion rest)
    have hdrop : (t :: v.length :: (v ++ encodeRegion rest)).drop
        (2 + v.length) = encodeRegion rest := by
      rw [show 2 + v.length = v.length + 2 from by omega]
      show (v ++ encodeRegion rest).drop v.length = encodeRegion rest
      exact List.drop_left v (encodeRegion rest)
    rw [hslice, hdrop] at hnext
    rw [runIter_cons hnext, ih]
    rfl

/-- Looking a name up after folding `add` over a record list gives the
last binding of that name, falling back to the accumulator. -/
theorem foldl_add_get (l : List (TagName × List Nat)) :
    ∀ (acc : TaggedParameters) (n : TagName),
      (l.foldl (fun tp r => tp.add r.1 r.2) acc).get_bytes n =
        match lastAssoc l n with
        | some v => some v
        | none => acc.get_bytes n := by
  induction l with
  | nil => intro acc n; rfl
  | cons p rest ih =>
    intro acc n
    obtain ⟨pn, pv⟩ := p
    show (rest.foldl (fun tp r => tp.add r.1 r.2) (acc.add pn pv)).get_bytes n = _
    rw [ih (acc.add pn pv) n]
    cases hrest : lastAssoc rest n with
    | some v => simp [lastAssoc, hrest]
    | none =>
      simp only [lastAssoc, hrest]
      by_cases hn : pn = n
      · subst hn
        simp [TaggedParameters.add, TaggedParameters.get_bytes]
      · simp [TaggedParameters.add, TaggedParameters.get_bytes, hn, Ne.symm hn]

/-- C7: for a well-formed back-to-back sequence of (tag, length, value)
triples filling a region exactly, the built collection succeeds and maps
each tag name to the value of the last triple carrying it (and names of
no triple to nothing). -/
theorem collection_from_wellformed_region (triples : List (Nat × List Nat))
    (hwf : wfTriples triples) :
    ∃ tp, tagged_parameters (encodeRegion triples) = Except.ok tp ∧
      ∀ name, tp.get_bytes name =
        lastAssoc (triples.map fun p => (TagName.ofCode p.1, p.2)) name := by
  refine ⟨(triples.map fun p => (TagName.ofCode p.1, p.2)).foldl
      (fun tp r => tp.add r.1 r.2) TaggedParameters.new, ?_, ?_⟩
  · rw [tagged_parameters, runIter_encode]
    have hmap : (triples.map fun p =>
          (Except.ok (TagName.ofCode p.1, p.2) :
            Except OverflowError (TagName × List Nat))) =
        (triples.map fun p => (TagName.ofCode p.1, p.2)).map Except.ok := by
      simp
    rw [hmap, collectTags_all_ok]
  · intro name
    rw [foldl_add_get]
    cases lastAssoc (triples.map fun p => (TagName.ofCode p.1, p.2)) name
      <;> rfl

/-- C3: `make_std_rsn` is a sequential cursor parse in which every field
read is gated by an enough-bytes-remain check, and each failing gate stops
decoding at once, leaving every remaining field at its default/empty value
(record fields not listed below are the `RSN` defaults).  The codomain is
`RSN` itself — not an error type — so no truncation can produce an error.
The conjuncts follow the gates of the source in order: the 4-byte group
suite, the 2-byte pairwise count, the pairwise suite loop, the 2-byte AKM
count, the AKM suite loop, and the 2-byte capabilities field. -/
theorem make_std_rsn_truncation (bytes : List Nat) :
    (bytes.length < 4 → make_std_rsn bytes = {}) ∧
    (4 ≤ bytes.length → (make_std_rsn bytes).group_cipher_suite =
      some (read_cipher_suite (sliceList bytes 0 4))) ∧
    (4 ≤ bytes.length → bytes.length < 6 → make_std_rsn bytes =
      { group_cipher_suite := some (read_cipher_suite (sliceList bytes 0 4)) }) ∧
    (∀ pw i1, 6 ≤ bytes.length →
      readSuiteListAux read_cipher_suite bytes 6 (readU16LE bytes 4) =
        (pw, i1, false) →
      make_std_rsn bytes =
        { group_cipher_suite := some (read_cipher_suite (sliceList bytes 0 4)),
          pairwise_cipher_suites := pw }) ∧
    (∀ pw i1, 6 ≤ bytes.length →
      readSuiteListAux read_cipher_suite bytes 6 (readU16LE bytes 4) =
        (pw, i1, true) →
      bytes.length < i1 + 2 →
      make_std_rsn bytes =
        { group_cipher_suite := some (read_cipher_suite (sliceList bytes 0 4)),
          pairwise_cipher_suites := pw }) ∧
    (∀ pw i1 akms i2, 6 ≤ bytes.length →
      readSuiteListAux read_cipher_suite bytes 6 (readU16LE bytes 4) =
        (pw, i1, true) →
      i1 + 2 ≤ bytes.length →
      readSuiteListAux read_akm_suite bytes (i1 + 2) (readU16LE bytes i1) =
        (akms, i2, false) →
      make_std_rsn bytes =
        { group_cipher_suite := some (read_cipher_suite (sliceList bytes 0 4)),
          pairwise_cipher_suites := pw,
          akm_suites := akms }) ∧
    (∀ pw i1 akms i2, 6 ≤ bytes.length →
      readSuiteListAux read_cipher_suite bytes 6 (readU16LE bytes 4) =
        (pw, i1, true) →
      i1 + 2 ≤ bytes.length →
      readSuiteListAux read_akm_suite bytes (i1 + 2) (readU16LE bytes i1) =
        (akms, i2, true) →
      bytes.length < i2 + 2 →
      make_std_rsn bytes =
        { group_cipher_suite := some (read_cipher_suite (sliceList bytes 0 4)),
          pairwise_cipher_suites := pw,
          akm_suites := akms }) ∧
    (∀ pw i1 akms i2, 6 ≤ bytes.length →
      readSuiteListAux read_cipher_suite bytes 6 (readU16LE bytes 4) =
        (pw, i1, true) →
      i1 + 2 ≤ bytes.length →
      readSuiteListAux read_akm_suite bytes (i1 + 2) (readU16LE bytes i1) =
        (akms, i2, true) →
      i2 + 2 ≤ bytes.length →
      make_std_rsn bytes =
        { group_cipher_suite := some (read_cipher_suite (sliceList bytes 0 4)),
          pairwise_cipher_suites := pw,
          akm_suites := akms,
          capabilities := some (unpackCapabilities (readU16LE bytes i2)) }) := by
  refine ⟨?_, ?_, ?_, ?_, ?_, ?_, ?_, ?_⟩
  · intro h
    unfold make_std_rsn
    rw [if_pos (by omega)]
  · intro h4
    unfold make_std_rsn
    rw [if_neg (by omega)]
    simp only []
    repeat' split
    all_goals rfl
  · intro h4 h6
    unfold make_std_rsn
    rw [if_neg (by omega), if_pos (by omega)]
  · intro pw i1 h6 hsl
    unfold make_std_rsn
    rw [if_neg (by omega), if_neg (by omega)]
    simp only []
    rw [hsl]
    simp
  · intro pw i1 h6 hsl hi1
    unfold make_std_rsn
    rw [if_neg (by omega), if_neg (by omega)]
    simp only []
    rw [hsl]
    simp [hi1]
  · intro pw i1 akms i2 h6 hsl hle hakm
    unfold make_std_rsn
    rw [if_neg (by omega), if_neg (by omega)]
    simp only []
    rw [hsl]
    simp [hakm, show ¬ i1 + 2 > bytes.length from by omega]
  · intro pw i1 akms i2 h6 hsl hle hakm hi2
    unfold make_std_rsn
    rw [if_neg (by omega), if_neg (by omega)]
    simp only []
    rw [hsl]
    simp [hakm, show ¬ i1 + 2 > bytes.length from by omega, hi2]
  · intro pw i1 akms i2 h6 hsl hle hakm hi2
    unfold make_std_rsn
    rw [if_neg (by omega), if_neg (by omega)]
    simp only []
    rw [hsl]
    simp [hakm, show ¬ i1 + 2 > bytes.length from by omega,
      show ¬ i2 + 2 > bytes.length from by omega]

/-- Witness for C3 on a 4-byte value: the group suite is decoded, every
later field keeps its default. -/
theorem make_std_rsn_truncation_witness :
    make_std_rsn [1, 0, 0, 0] =
      { group_cipher_suite :=
          some (read_cipher_suite (sliceList [1, 0, 0, 0] 0 4)) } :=
  (make_std_rsn_truncation [1, 0, 0, 0]).2.2.1 (by decide) (by decide)

/-- A mask by a single power of two, tested against zero, is the bit test
at that position. -/
theorem and_two_pow_bne (b k : Nat) : (b &&& 2 ^ k != 0) = b.testBit k := by
  rw [Nat.and_two_pow]
  cases h : b.testBit k
  · simp
  · simp [(Nat.two_pow_pos k).ne']

/-- A two-bit mask `0b11 <<< k` followed by a shift back extracts the
two-bit field at position `k`. -/
theorem and_three_shift (b k : Nat) :
    (b &&& (3 <<< k)) >>> k = b >>> k % 4 := by
  apply Nat.eq_of_testBit_eq
  intro j
  rw [Nat.testBit_shiftRight, Nat.testBit_and, Nat.testBit_shiftLeft,
    show (4 : Nat) = 2 ^ 2 from rfl, Nat.testBit_mod_two_pow,
    Nat.testBit_shiftRight]
  have hge : decide (k + j ≥ k) = true := by simp
  have h3 : Nat.testBit 3 (k + j - k) = decide (j < 2) := by
    rw [show k + j - k = j from by omega]
    match j with
    | 0 => rfl
    | 1 => rfl
    | j + 2 =>
      rw [Nat.testBit_lt_two_pow]
      · simp
      · calc (3 : Nat) < 2 ^ 2 := by omega
          _ ≤ 2 ^ (j + 2) := Nat.pow_le_pow_right (by omega) (by omega)
  rw [hge, h3]
  rw [Bool.true_and, Bool.and_comm]

/-- C9: for every value `b`, the capability unpacking reads bit 0 as
pre-auth, bit 1 as no-pairwise, bits 2–3 as the PTKSA replay-counter
code, bits 4–5 as the GTKSA replay-counter code, bit 6 as
management-frame-protection-required, bit 7 as
management-frame-protection-capable, bit 8 as joint multi-band and bit 9
as peer-key. -/
theorem capabilities_unpack (b : Nat) :
    unpackCapabilities b =
      { pre_auth := b.testBit 0
        pairwise := b.testBit 1
        ptksa_replay_counter_value := b / 4 % 4
        gtksa_replay_counter_value := b / 16 % 4
        management_frame_protection_required := b.testBit 6
        management_frame_protection_capable := b.testBit 7
        joint_multi_band_rsna := b.testBit 8
        peerkey := b.testBit 9 } := by
  unfold unpackCapabilities
  simp only [RSNCapabilities.mk.injEq]
  refine ⟨?_, ?_, ?_, ?_, ?_, ?_, ?_, ?_⟩
  · exact and_two_pow_bne b 0
  · exact and_two_pow_bne b 1
  · rw [show b / 4 = b >>> 2 from by rw [Nat.shiftRight_eq_div_pow]]
    exact and_three_shift b 2
  · rw [show b / 16 = b >>> 4 from by rw [Nat.shiftRight_eq_div_pow]]
    exact and_three_shift b 4
  · exact and_two_pow_bne b 6
  · exact and_two_pow_bne b 7
  · exact and_two_pow_bne b 8
  · exact and_two_pow_bne b 9

/-- C8: a suite entry whose organizational id is the IEEE triplet
`00:0F:AC` is classified standard, with the enumerated cipher type
mapping codes 1, 2, 4, 5, 6, 7 to the named kinds and code 3 as well as
every code at least 8 to the reserved holder carrying the raw code; a
suite entry with any other organizational id is classified vendor,
carrying the raw triplet and type byte unchanged (for cipher suites and
AKM suites alike). -/
theorem suite_classification :
    (∀ t, CipherSuite.ofOui [0x00, 0x0f, 0xac] t =
      CipherSuite.Standard (CipherSuiteType.ofCode t)) ∧
    (∀ t, AKMSuite.ofOui [0x00, 0x0f, 0xac] t =
      AKMSuite.Standard (AKMSuiteType.ofCode t)) ∧
    CipherSuiteType.ofCode 1 = CipherSuiteType.WEP40 ∧
    CipherSuiteType.ofCode 2 = CipherSuiteType.TKIP ∧
    CipherSuiteType.ofCode 4 = CipherSuiteType.CCMP ∧
    CipherSuiteType.ofCode 5 = CipherSuiteType.WEP104 ∧
    CipherSuiteType.ofCode 6 = CipherSuiteType.BIP ∧
    CipherSuiteType.ofCode 7 =
      CipherSuiteType.GroupAddressedTrafficNotAllowed ∧
    (∀ t, t = 3 ∨ 8 ≤ t →
      CipherSuiteType.ofCode t = CipherSuiteType.Reserved t) ∧
    (∀ oui t, oui ≠ [0x00, 0x0f, 0xac] →
      CipherSuite.ofOui oui t = CipherSuite.Vendor oui t) ∧
    (∀ oui t, oui ≠ [0x00, 0x0f, 0xac] →
      AKMSuite.ofOui oui t = AKMSuite.Vendor oui t) := by
  refine ⟨fun t => ?_, fun t => ?_, rfl, rfl, rfl, rfl, rfl, rfl,
    fun t h => ?_, fun oui t h => ?_, fun oui t h => ?_⟩
  · unfold CipherSuite.ofOui
    rw [if_pos rfl]
  · unfold AKMSuite.ofOui
    rw [if_pos rfl]
  · rcases h with h | h
    · subst h
      rfl
    · obtain ⟨k, rfl⟩ : ∃ k, t = k + 8 := ⟨t - 8, by omega⟩
      rfl
  · unfold CipherSuite.ofOui
    rw [if_neg h]
  · unfold AKMSuite.ofOui
    rw [if_neg h]

/-- Witness for C8 at code 9 and at a vendor OUI. -/
theorem suite_classification_witness :
    CipherSuiteType.ofCode 9 = CipherSuiteType.Reserved 9 ∧
    CipherSuite.ofOui [1, 2, 3] 4 = CipherSuite.Vendor [1, 2, 3] 4 :=
  ⟨suite_classification.2.2.2.2.2.2.2.2.1 9 (Or.inr (by decide)),
    suite_classification.2.2.2.2.2.2.2.2.2.1 [1, 2, 3] 4 (by decide)⟩

/-- C10: when the RSN tag is absent the accessor returns nothing, and
when the RSN tag is present with a value shorter than the two-byte
version field it returns nothing as well — neither an error nor a
default-filled descriptor. -/
theorem rsn_short_value_none (tp : TaggedParameters) :
    (tp.tags TagName.RSNInformation = none → tp.rsn = none) ∧
    (∀ bytes, tp.tags TagName.RSNInformation = some bytes →
      bytes.length < 2 → tp.rsn = none) := by
  constructor
  · intro h
    unfold TaggedParameters.rsn
    rw [h]
    rfl
  · intro bytes h hlen
    simp [TaggedParameters.rsn, h, show 0 + 1 ≥ bytes.length from by omega]

/-- Witness for C10 on a one-byte RSN tag value. -/
theorem rsn_short_value_none_witness :
    (TaggedParameters.new.add TagName.RSNInformation [1]).rsn = none :=
  (rsn_short_value_none (TaggedParameters.new.add TagName.RSNInformation [1])).2
    [1] (by rfl) (by decide)

/-- C2 fails on the code: decoding the buffer `[0x03, 0x00]` — a
DS-Parameter tag with an empty value — succeeds, and on the resulting
collection the `channel` accessor indexes the empty value at position 0,
which is the out-of-bounds panic modelled by `none`. -/
theorem channel_panics_on_empty_ds_value :
    ∃ tp, tagged_parameters [3, 0] = Except.ok tp ∧
      tp.channel = none := by
  refine ⟨TaggedParameters.new.add TagName.DSParameter [], ?_, rfl⟩
  rw [tagged_parameters,
    runIter_cons (show next [3, 0] =
      (some (Except.ok (TagName.DSParameter, [])), []) from rfl),
    runIter_nil (show next ([] : List Nat) = (none, []) from rfl)]
  rfl

/-- Witness for C7 on two duplicate SSID records: the later value wins. -/
theorem collection_from_wellformed_region_witness :
    ∃ tp, tagged_parameters (encodeRegion [(0, [65]), (0, [66])]) =
        Except.ok tp ∧
      ∀ name, tp.get_bytes name =
        lastAssoc ([(0, [65]), (0, [66])].map
          fun p => (TagName.ofCode p.1, p.2)) name :=
  collection_from_wellformed_region [(0, [65]), (0, [66])] (by decide)

end Ieee80211
